import Mathlib

/-!
Verification of the SpiderForce4AI concurrent conversion pipeline
(`src/utils/firecrawl.js`, first `ConcurrentCrawler` implementation, and
`src/utils/converter.js`) against its natural-language specification.

The JavaScript source is shallowly embedded: JS `Map` objects keyed by URL
become association lists with insertion-order `set` semantics, the job driver
becomes an explicit fold over batches, external collaborators (browser,
turndown transform, jsdom) become oracle parameters, and the single observable
interleaving nondeterminism of the bounded worker group becomes an explicit
completion schedule.
-/

namespace SpiderForce

/-- Characters of `pat` occur as a prefix of `s` (helper for substring search). -/
def isPrefixChars : List Char → List Char → Bool
  | [], _ => true
  | _ :: _, [] => false
  | a :: as, b :: bs => a == b && isPrefixChars as bs

/-- `pat` occurs as a contiguous substring of `s` (JS `String.prototype.includes`). -/
def subOccurs (pat : List Char) : List Char → Bool
  | [] => pat.isEmpty
  | c :: rest => isPrefixChars pat (c :: rest) || subOccurs pat rest

/-- JS `s.includes(pat)`. -/
def strContains (s pat : String) : Bool :=
  subOccurs pat.data s.data

end SpiderForce

/-! ## Markdown converter (`src/utils/converter.js`) -/

namespace SpiderForce

/-- ECMAScript LineTerminator characters, the boundaries used by the `m` flag
and excluded by `.` in the pipe-stripping regexes of `converter.js`. -/
def isLineTerm (c : Char) : Bool :=
  c == '\n' || c == '\r' || c == Char.ofNat 0x2028 || c == Char.ofNat 0x2029

/-- Split a character list into its first line (maximal terminator-free run)
and the remainder beginning at the first line terminator, if any. -/
def splitAtTerm : List Char → List Char × List Char
  | [] => ([], [])
  | c :: cs =>
    if isLineTerm c then ([], c :: cs)
    else
      let p := splitAtTerm cs
      (c :: p.1, p.2)

/-- `s.replace(/^.*\|.*$/gm, '')` (converter.js lines 16 and 136): every line
containing `'|'` is replaced by the empty string, line terminators are kept.
The fuel argument bounds recursion; each step consumes the first line plus its
terminator, so fuel equal to the input length never runs out (each recursive
call is on a strictly shorter list by `splitAtTerm_length`). -/
def dropPipeLinesAux : Nat → List Char → List Char
  | 0, _ => []
  | fuel+1, cs =>
    let p := splitAtTerm cs
    let line := if p.1.contains '|' then [] else p.1
    match p.2 with
    | [] => line
    | t :: rest => line ++ t :: dropPipeLinesAux fuel rest

/-- String wrapper for `dropPipeLinesAux` with sufficient fuel. -/
def dropPipeLines (s : String) : String :=
  ⟨dropPipeLinesAux s.data.length s.data⟩

/-- Split at the first `'|'`: returns the characters before it and those after
it (the pipe itself excluded), or `none` if no pipe occurs. -/
def breakAtPipe : List Char → Option (List Char × List Char)
  | [] => none
  | c :: cs =>
    if c == '|' then some ([], cs)
    else (breakAtPipe cs).map (fun p => (c :: p.1, p.2))

/-- `s.replace(/\|[\s\S]*?\|/g, '')` (converter.js line 19): repeatedly remove
the span from the leftmost `'|'` to the nearest following `'|'` (inclusive) and
continue scanning after it; a lone remaining pipe matches nothing. -/
def stripPipePairsAux : Nat → List Char → List Char
  | 0, cs => cs
  | fuel+1, cs =>
    match breakAtPipe cs with
    | none => cs
    | some (pre, rest) =>
      match breakAtPipe rest with
      | none => cs
      | some (_, rest2) => pre ++ stripPipePairsAux fuel rest2

/-- String wrapper for `stripPipePairsAux` with sufficient fuel (each match
consumes at least two characters). -/
def stripPipePairs (s : String) : String :=
  ⟨stripPipePairsAux s.data.length s.data⟩

/-- The characters whose escaping backslash is removed by
`s.replace(/\\([_\\`'])/g, '$1')` (converter.js line 22):
underscore, backslash, backquote, quote. -/
def unescSpecials : List Char := ['_', '\\', Char.ofNat 96, Char.ofNat 39]

/-- `s.replace(/\\([_\\`'])/g, '$1')`: drop a backslash directly before one of
`unescSpecials`; matches do not overlap, scanning resumes after each match. -/
def unescapeChars : List Char → List Char
  | [] => []
  | '\\' :: c :: rest =>
    if unescSpecials.contains c then c :: unescapeChars rest
    else '\\' :: unescapeChars (c :: rest)
  | c :: rest => c :: unescapeChars rest

/-- The pre-pass of `convertToMarkdown` (converter.js lines 14-23). The JS
guard `html && typeof html === 'string'` skips the pass for the empty string
(falsy); this embedding covers string inputs. -/
def preprocessHtml (html : String) : String :=
  if html.isEmpty then html
  else ⟨unescapeChars (stripPipePairs (dropPipeLines html)).data⟩

/-- JS `\s` whitespace as used by `textContent.replace(/\s+/g, ' ')`
(converter.js line 151); the exotic Unicode space classes not listed here are
irrelevant to the claims (none of them is `'|'`). -/
def isJsWs (c : Char) : Bool :=
  c == ' ' || c == '\t' || c == '\n' || c == '\r' ||
  c == Char.ofNat 0x0b || c == Char.ofNat 0x0c || c == Char.ofNat 0xa0 ||
  c == Char.ofNat 0x2028 || c == Char.ofNat 0x2029 || c == Char.ofNat 0xfeff

/-- Replace each maximal whitespace run by a single space (fuel-based; fuel
equal to the input length suffices since `dropWhile` never grows a list). -/
def collapseWsAux : Nat → List Char → List Char
  | 0, _ => []
  | _, [] => []
  | fuel+1, c :: rest =>
    if isJsWs c then ' ' :: collapseWsAux fuel (rest.dropWhile isJsWs)
    else c :: collapseWsAux fuel rest

/-- `textContent.replace(/\s+/g, ' ').trim()` (converter.js line 151). -/
def normalizeWsStr (s : String) : String :=
  let t := ((s.data.dropWhile isJsWs).reverse.dropWhile isJsWs).reverse
  ⟨collapseWsAux t.length t⟩

/-- Decimal digits to a number, for character references. -/
def digitsToNat (ds : List Char) : Nat :=
  ds.foldl (fun n c => n * 10 + (c.toNat - 48)) 0

/-- Parse a decimal character reference body `#NNN;` after a `'&'`. -/
def parseCharRef (cs : List Char) : Option (Char × List Char) :=
  match cs with
  | '#' :: rest =>
    let digits := rest.takeWhile Char.isDigit
    match rest.dropWhile Char.isDigit with
    | ';' :: tail => if digits.isEmpty then none else some (Char.ofNat (digitsToNat digits), tail)
    | _ => none
  | _ => none

/-- Skip to just past the next `'>'`. -/
def skipTag (cs : List Char) : List Char :=
  match cs.dropWhile (fun c => !(c == '>')) with
  | [] => []
  | _ :: r => r

/-- Minimal model of jsdom's `document.body.textContent` as used by the
fallback of `convertToMarkdown` (converter.js lines 146-148): markup between
`<` and `>` contributes nothing, decimal character references such as `&#124;`
decode to the named character, all other characters pass through. jsdom is an
external collaborator (not part of `src/`); this models its documented DOM
text-extraction semantics on the simple well-formed inputs considered here. -/
def extractTextAux : Nat → List Char → List Char
  | 0, _ => []
  | _, [] => []
  | fuel+1, c :: rest =>
    if c == '<' then extractTextAux fuel (skipTag rest)
    else if c == '&' then
      match parseCharRef rest with
      | some (ch, rest') => ch :: extractTextAux fuel rest'
      | none => c :: extractTextAux fuel rest
    else c :: extractTextAux fuel rest

/-- String wrapper for `extractTextAux` with sufficient fuel. -/
def extractTextModel (s : String) : String :=
  ⟨extractTextAux s.data.length s.data⟩

/-- `convertToMarkdown` (converter.js lines 11-158), shallowly embedded.
`tr` is the TurndownService transform configured with the custom rules
(an external collaborator; `none` models a thrown error, the catastrophic
transform failure). `mid` overapproximates the post-processing passes of
lines 126-133 (newline collapsing, code-fence and link fixes): their exact
behavior cannot affect the pipe claims because the final pipe-line removal of
line 136 runs after them, so the embedding quantifies over them. `textC` is
the jsdom text extraction used by the fallback (lines 143-155); a failure of
the extraction itself is modelled by `textC` returning the constant error
string the catch block produces. -/
def convertToMarkdown (tr : String → Option String) (textC : String → String)
    (mid : String → String) (html : String) : String :=
  let h := preprocessHtml html
  match tr h with
  | some md => dropPipeLines (mid md)
  | none => normalizeWsStr (textC h)

/-- The output contains a pipe character somewhere (equivalently: some line of
the output contains `'|'`, since every character lies on some line). -/
def hasPipe (s : String) : Bool := s.data.contains '|'

/-- The replacement function of the custom `tables` rule
(converter.js lines 102-115): `node.rows.length` is `rowCount`, `content` is
the GFM-converted inner content supplied by turndown. -/
def tablesRuleReplacement (rowCount : Nat) (content : String) : String :=
  if rowCount > 20 || strContains content "|---" then "\n\n" else content

end SpiderForce

/-! ## Pipe-removal lemmas and converter claims -/

namespace SpiderForce

theorem splitAtTerm_restHead : ∀ (cs : List Char) {t : Char} {r : List Char},
    (splitAtTerm cs).2 = t :: r → isLineTerm t = true := by
  intro cs
  induction cs with
  | nil => intro t r h; simp [splitAtTerm] at h
  | cons c cs ih =>
    intro t r h
    by_cases hc : isLineTerm c
    · simp [splitAtTerm, hc] at h
      obtain ⟨h1, _⟩ := h
      exact h1 ▸ hc
    · simp [splitAtTerm, hc] at h
      exact ih h

theorem pipe_not_mem_dropPipeLinesAux : ∀ (fuel : Nat) (cs : List Char),
    '|' ∉ dropPipeLinesAux fuel cs := by
  intro fuel
  induction fuel with
  | zero => intro cs; simp [dropPipeLinesAux]
  | succ fuel ih =>
    intro cs
    simp only [dropPipeLinesAux]
    have hline : '|' ∉ (if (splitAtTerm cs).1.contains '|' then ([] : List Char)
        else (splitAtTerm cs).1) := by
      by_cases hc : (splitAtTerm cs).1.contains '|'
      · simp [hc]
      · simp only [hc, if_neg, Bool.false_eq_true, not_false_eq_true, if_false]
        intro hmem
        exact hc (List.elem_iff.mpr hmem)
    match hrest : (splitAtTerm cs).2 with
    | [] => simp only [hrest]; exact hline
    | t :: rest =>
      have ht : isLineTerm t = true := splitAtTerm_restHead cs hrest
      have htp : t ≠ '|' := by
        intro he
        rw [he] at ht
        simp [isLineTerm, Char.ofNat] at ht
      simp only [hrest, List.mem_append, List.mem_cons]
      push_neg
      exact ⟨hline, fun he => (htp he.symm).elim, ih rest⟩

theorem hasPipe_dropPipeLines (s : String) : hasPipe (dropPipeLines s) = false := by
  simp only [hasPipe, dropPipeLines]
  by_contra h
  rw [Bool.not_eq_false] at h
  exact pipe_not_mem_dropPipeLinesAux s.data.length s.data (List.elem_iff.mp h)

end SpiderForce

namespace SpiderForce

/-- **C8, counterexample.** The claim states that no line of the Markdown
returned by `convertToMarkdown` contains `'|'`, *including* the plain-text
fallback output. On the fallback path (transform throws) for the input
`"<p>&#124;</p>"`, the raw-string pre-pass sees no literal pipe, jsdom's text
extraction decodes the character reference to `'|'`, and the fallback performs
no pipe-line removal, so the returned string is `"|"`. -/
theorem convert_fallback_pipe_cex :
    hasPipe (convertToMarkdown (fun _ => none) extractTextModel id "<p>&#124;</p>") = true := by
  decide

/-- **C8, amended.** Whenever the core transform succeeds (no catastrophic
failure), no line of the Markdown returned by `convertToMarkdown` contains the
character `'|'`: the final post-pass (converter.js line 136) deletes every
pipe-bearing line, whatever the transform and the intermediate post-passes
produced. On the fallback path the guarantee does not hold (see the
counterexample). Stated as: the output contains no `'|'` at all, which is
equivalent since every character of the output lies on some line. -/
theorem convert_no_pipe_of_transform_ok (tr : String → Option String)
    (textC : String → String) (mid : String → String) (html md : String)
    (h : tr (preprocessHtml html) = some md) :
    hasPipe (convertToMarkdown tr textC mid html) = false := by
  simp only [convertToMarkdown, h]
  exact hasPipe_dropPipeLines _

/-- Witness for `convert_no_pipe_of_transform_ok` at a concrete transform whose
output contains pipes. -/
theorem convert_no_pipe_of_transform_ok_witness :
    hasPipe (convertToMarkdown (fun _ => some "a|b\nc") extractTextModel id "z") = false :=
  convert_no_pipe_of_transform_ok (fun _ => some "a|b\nc") extractTextModel id "z" "a|b\nc" rfl

/-- **C9, counterexample.** The claim states that every table with at most 20
rows is converted to GFM table syntax. The rule's replacement function
(converter.js line 108) also drops any table whose converted content contains
the substring `"|---"`: a 1-row table with such content is replaced by a blank
line instead of being kept. -/
theorem tables_rule_cex :
    tablesRuleReplacement 1 "|---" = "\n\n" ∧ ("|---" : String) ≠ "\n\n" := by
  constructor
  · decide
  · decide

/-- **C9, amended.** A table with more than 20 rows is dropped (replaced by a
blank line); a table with at most 20 rows is converted via GFM (the rule keeps
the GFM-converted content) *unless* its converted content contains the
substring `"|---"`, in which case it is also dropped. -/
theorem tables_rule_characterization (rowCount : Nat) (content : String)
    (hrows : rowCount ≤ 20) :
    (strContains content "|---" = false → tablesRuleReplacement rowCount content = content) ∧
    (strContains content "|---" = true → tablesRuleReplacement rowCount content = "\n\n") := by
  constructor
  · intro hc
    simp [tablesRuleReplacement, hc, Nat.not_lt.mpr hrows]
  · intro hc
    simp [tablesRuleReplacement, hc]

/-- Witness for `tables_rule_characterization` at a 2-row table with plain
content. -/
theorem tables_rule_characterization_witness :
    tablesRuleReplacement 2 "a b" = "a b" :=
  (tables_rule_characterization 2 "a b" (by decide)).1 (by decide)

end SpiderForce

/-! ## Layered cache (`firecrawl.js` lines 250-586) -/

namespace SpiderForce

/-- The two environment variables the cache logic reads and writes
(`process.env.USE_REDIS`, `process.env.DISABLE_ALL_CACHING`); `none` models an
unset variable. -/
structure CacheEnv where
  useRedis : Option String
  disableAllCaching : Option String
deriving Repr, DecidableEq

/-- `process.env.USE_REDIS || 'none'` (line 274 and line 500). -/
def redisModeOf (env : CacheEnv) : String := env.useRedis.getD "none"

/-- `redisMode === 'none' || redisMode.toLowerCase() === 'none'`
(lines 278 and 501). -/
def modeIsNone (mode : String) : Bool :=
  mode == "none" || mode.toLower == "none"

/-- The effect of `initRedis` (lines 266-293) on the environment when the mode
is `none`: unless `DISABLE_ALL_CACHING` is already the string `'false'`, it is
set to `'true'` (line 284-285). For other modes `initRedis` configures the
Redis client and never touches `DISABLE_ALL_CACHING`. -/
def initRedisEnv (env : CacheEnv) : CacheEnv :=
  if modeIsNone (redisModeOf env) then
    if env.disableAllCaching ≠ some "false" then { env with disableAllCaching := some "true" }
    else env
  else env

/-- `isRedisEnabled` (lines 499-505): `false` when the configured mode is
`none`, otherwise the module-level `useRedis` flag and client existence.  -/
def isRedisEnabled (env : CacheEnv) (useRedisFlag clientExists : Bool) : Bool :=
  if modeIsNone (redisModeOf env) then false else useRedisFlag && clientExists

/-- In-process LRU cache contents as an association list. The capacity bound
(1000) and TTL of the `lru-cache` instance are not modelled: the claims under
verification concern only whether the tier is consulted at all. -/
def lruLookup (lru : List (String × String)) (key : String) : Option String :=
  (lru.find? (fun p => p.1 == key)).map (·.2)

/-- Store into the LRU model (insert or overwrite). -/
def lruSet (lru : List (String × String)) (key data : String) : List (String × String) :=
  if (lru.find? (fun p => p.1 == key)).isSome then
    lru.map (fun p => if p.1 == key then (key, data) else p)
  else (key, data) :: lru

/-- `getCacheByKey` (lines 528-547): short-circuit to `null` when
`DISABLE_ALL_CACHING === 'true'`; else Redis when enabled; else the LRU when it
has the key; else `null`. `redisGet` is the external Redis store. -/
def getCacheByKey (env : CacheEnv) (useRedisFlag clientExists : Bool)
    (redisGet : String → Option String) (lru : List (String × String))
    (key : String) : Option String :=
  if env.disableAllCaching = some "true" then none
  else if isRedisEnabled env useRedisFlag clientExists then redisGet key
  else if (lruLookup lru key).isSome then lruLookup lru key
  else none

/-- `setCacheByKey` (lines 556-575): no-op returning `false` when
`DISABLE_ALL_CACHING === 'true'` or the caller bypasses the cache; Redis write
when enabled (LRU untouched); otherwise an LRU write. Result: the returned
boolean and the LRU contents afterwards. -/
def setCacheByKey (env : CacheEnv) (useRedisFlag clientExists : Bool)
    (lru : List (String × String)) (key data : String) (bypassCache : Bool) :
    Bool × List (String × String) :=
  if env.disableAllCaching = some "true" ∨ bypassCache then (false, lru)
  else if isRedisEnabled env useRedisFlag clientExists then (true, lru)
  else (true, lruSet lru key data)

/-- **C6, counterexample.** The claim states that with mode `none` and the
master switch *unset*, the LRU is still used for reads and writes. In the
code, `initRedis` with mode `none` sets `DISABLE_ALL_CACHING` to `'true'`
whenever it is not already exactly `'false'` — in particular when it is unset —
after which reads return `null` even for a key the LRU holds, and writes
store nothing. -/
theorem cache_none_unset_cex :
    (initRedisEnv ⟨some "none", none⟩).disableAllCaching = some "true" ∧
    getCacheByKey (initRedisEnv ⟨some "none", none⟩) false false (fun _ => none)
      [("k", "v")] "k" = none ∧
    lruLookup [("k", "v")] "k" = some "v" ∧
    (setCacheByKey (initRedisEnv ⟨some "none", none⟩) false false [] "k" "v" false)
      = (false, []) := by
  refine ⟨by decide, by decide, by decide, by decide⟩

/-- **C6, amended.** With mode `none`, the in-process LRU is used for reads and
writes only when `DISABLE_ALL_CACHING` is explicitly the string `'false'`; in
every other case (unset included) `initRedis` sets the master switch to
`'true'` and both cache tiers short-circuit to miss/no-op. -/
theorem cache_none_master_switch (dac : Option String) (u c : Bool)
    (redisGet : String → Option String) (lru : List (String × String))
    (key data : String) :
    (dac = some "false" →
      initRedisEnv ⟨some "none", dac⟩ = ⟨some "none", dac⟩ ∧
      getCacheByKey (initRedisEnv ⟨some "none", dac⟩) u c redisGet lru key
        = lruLookup lru key ∧
      setCacheByKey (initRedisEnv ⟨some "none", dac⟩) u c lru key data false
        = (true, lruSet lru key data)) ∧
    (dac ≠ some "false" →
      (initRedisEnv ⟨some "none", dac⟩).disableAllCaching = some "true" ∧
      getCacheByKey (initRedisEnv ⟨some "none", dac⟩) u c redisGet lru key = none ∧
      setCacheByKey (initRedisEnv ⟨some "none", dac⟩) u c lru key data false
        = (false, lru)) := by
  constructor
  · intro hf
    subst hf
    have henv : initRedisEnv ⟨some "none", some "false"⟩ = ⟨some "none", some "false"⟩ := by
      decide
    refine ⟨henv, ?_, ?_⟩
    · rw [henv]
      simp only [getCacheByKey, isRedisEnabled, modeIsNone, redisModeOf]
      have : ¬ ((some "false" : Option String) = some "true") := by decide
      simp only [this, if_false, Option.getD]
      have h2 : (("none" : String) == "none" || ("none" : String).toLower == "none") = true := by
        decide
      simp only [h2, if_true, if_false]
      cases h : lruLookup lru key with
      | none => simp [h]
      | some v => simp [h]
    · rw [henv]
      simp only [setCacheByKey, isRedisEnabled, modeIsNone, redisModeOf]
      have : ¬ (((some "false" : Option String) = some "true") ∨ False) := by decide
      simp only [Option.getD]
      have h2 : (("none" : String) == "none" || ("none" : String).toLower == "none") = true := by
        decide
      simp [h2, this]
  · intro hnf
    have henv : initRedisEnv ⟨some "none", dac⟩ = ⟨some "none", some "true"⟩ := by
      simp only [initRedisEnv, modeIsNone, redisModeOf, Option.getD]
      have h2 : (("none" : String) == "none" || ("none" : String).toLower == "none") = true := by
        decide
      simp [h2, hnf]
    rw [henv]
    refine ⟨rfl, by simp [getCacheByKey], by simp [setCacheByKey]⟩

/-- Witness for `cache_none_master_switch` at both an explicit `'false'` switch
and an unset one. -/
theorem cache_none_master_switch_witness :
    getCacheByKey (initRedisEnv ⟨some "none", some "false"⟩) false false (fun _ => none)
      [("k", "v")] "k" = lruLookup [("k", "v")] "k" :=
  ((cache_none_master_switch (some "false") false false (fun _ => none)
    [("k", "v")] "k" "d").1 rfl).2.1

end SpiderForce

/-! ## Per-URL retry policy (`firecrawl.js` lines 901-1042) -/

namespace SpiderForce

/-- Outcome of one attempt of the browser+clean+convert pipeline inside
`processUrl` (lines 953-996): success, or a thrown error with its message. -/
inductive AttemptResult where
  | ok
  | fail (msg : String)
deriving Repr, DecidableEq

/-- The transient-error test of line 1003-1005: the message contains `net::`,
`Navigation timeout` or `Protocol error`. -/
def isTransient (msg : String) : Bool :=
  strContains msg "net::" || strContains msg "Navigation timeout" ||
  strContains msg "Protocol error"

/-- JS `x || d` on an optional number: `undefined` and `0` are falsy
(`job?.config?.retryCount || 2`, lines 1002 and 1008). -/
def jsOrNat : Option Nat → Nat → Nat
  | none, d => d
  | some 0, d => d
  | some (n+1), _ => n+1

/-- Result of `processUrl` restricted to what the retry claims observe:
the success flag and error of the returned `ProcessingResult`, plus the number
of pipeline attempts made. -/
structure RetryOutcome where
  success : Bool
  error : Option String
  attemptsMade : Nat
deriving Repr, DecidableEq

/-- The retry control flow of `processUrl` (lines 998-1032). `attempts i` is
the outcome the pipeline would produce on attempt `i` (an oracle for the
external browser work); `remaining` is `effRetryCount - retryCount`, so
`remaining > 0` is exactly the JS guard `retryCount < retryCount_config`;
a retry happens only when the guard holds *and* the error is transient;
otherwise the error result `{url, success: false, error}` is returned. -/
def processUrlRetryAux (attempts : Nat → AttemptResult) :
    Nat → Nat → RetryOutcome
  | remaining, k =>
    match attempts k with
    | .ok => ⟨true, none, k + 1⟩
    | .fail e =>
      match remaining with
      | 0 => ⟨false, some e, k + 1⟩
      | r + 1 =>
        if isTransient e then processUrlRetryAux attempts r (k + 1)
        else ⟨false, some e, k + 1⟩

/-- `processUrl` called with `retryCount = 0` and the job's configured
`retryCount` (an optional number, `|| 2` applied as in the source). -/
def processUrlRetry (cfgRetryCount : Option Nat) (attempts : Nat → AttemptResult) :
    RetryOutcome :=
  processUrlRetryAux attempts (jsOrNat cfgRetryCount 2) 0

theorem processUrlRetryAux_spec (attempts : Nat → AttemptResult) :
    ∀ (r k : Nat),
      (k + 1 ≤ (processUrlRetryAux attempts r k).attemptsMade ∧
       (processUrlRetryAux attempts r k).attemptsMade ≤ k + r + 1) ∧
      (∀ i, k ≤ i → i + 1 < (processUrlRetryAux attempts r k).attemptsMade →
        ∃ e, attempts i = .fail e ∧ isTransient e = true) ∧
      ((processUrlRetryAux attempts r k).success = true →
        attempts ((processUrlRetryAux attempts r k).attemptsMade - 1) = .ok ∧
        (processUrlRetryAux attempts r k).error = none) ∧
      ((processUrlRetryAux attempts r k).success = false →
        ∃ e, attempts ((processUrlRetryAux attempts r k).attemptsMade - 1) = .fail e ∧
          (processUrlRetryAux attempts r k).error = some e ∧
          (isTransient e = false ∨
            (processUrlRetryAux attempts r k).attemptsMade = k + r + 1)) := by
  intro r
  induction r with
  | zero =>
    intro k
    cases hk : attempts k with
    | ok =>
      simp only [processUrlRetryAux, hk]
      refine ⟨⟨Nat.le_refl _, by omega⟩, ?_, ?_, ?_⟩
      · intro i hki hlt; omega
      · intro _; simpa using hk
      · intro hfalse; simp at hfalse
    | fail e =>
      simp only [processUrlRetryAux, hk]
      refine ⟨⟨Nat.le_refl _, by omega⟩, ?_, ?_, ?_⟩
      · intro i hki hlt; simp at hlt; omega
      · intro htrue; simp at htrue
      · intro _; exact ⟨e, by simpa using hk, rfl, Or.inr (by simp)⟩
  | succ r ih =>
    intro k
    cases hk : attempts k with
    | ok =>
      simp only [processUrlRetryAux, hk]
      refine ⟨⟨Nat.le_refl _, by omega⟩, ?_, ?_, ?_⟩
      · intro i hki hlt; simp at hlt; omega
      · intro _; simpa using hk
      · intro hfalse; simp at hfalse
    | fail e =>
      by_cases ht : isTransient e = true
      · have heq : processUrlRetryAux attempts (r + 1) k
            = processUrlRetryAux attempts r (k + 1) := by
          conv_lhs => rw [processUrlRetryAux]
          simp [hk, ht]
        rw [heq]
        obtain ⟨⟨hlo, hhi⟩, htrans, hok, hfail⟩ := ih (k + 1)
        refine ⟨⟨by omega, by omega⟩, ?_, hok, ?_⟩
        · intro i hki hlt
          rcases Nat.eq_or_lt_of_le hki with hik | hik
          · exact ⟨e, by rw [hik] at hk; exact hk, ht⟩
          · exact htrans i hik hlt
        · intro hf
          obtain ⟨e', h1, h2, h3⟩ := hfail hf
          refine ⟨e', h1, h2, ?_⟩
          rcases h3 with h3 | h3
          · exact Or.inl h3
          · exact Or.inr (by omega)
      · have heq : processUrlRetryAux attempts (r + 1) k
            = ⟨false, some e, k + 1⟩ := by
          conv_lhs => rw [processUrlRetryAux]
          simp [hk, ht]
        rw [heq]
        refine ⟨⟨Nat.le_refl _, by simp only [RetryOutcome.mk.injEq]; omega⟩, ?_, ?_, ?_⟩
        · intro i hki hlt; simp at hlt; omega
        · intro htrue; simp at htrue
        · intro _
          refine ⟨e, by simpa using hk, rfl, Or.inl ?_⟩
          simpa using ht

end SpiderForce

namespace SpiderForce

/-- **C7.** For every URL conversion inside a job: a retry is attempted only
for transient errors (message containing `net::`, `Navigation timeout` or
`Protocol error`), at most the configured maximum number of retries is
performed (`maxRetries = jsOrNat cfg 2`, the value `processUrl` reads from the
job config, so total attempts are at most `maxRetries + 1`), and on a
non-transient error or after exhaustion a failure result carrying the error is
returned: every attempt after the first follows a transient failure, and a
returned failure ends on an error that is either non-transient or the last
allowed attempt. -/
theorem processUrl_retry_policy (cfg : Option Nat) (attempts : Nat → AttemptResult)
    (n : Nat) (hn : jsOrNat cfg 2 = n) :
    (processUrlRetry cfg attempts).attemptsMade ≤ n + 1 ∧
    (∀ i, i + 1 < (processUrlRetry cfg attempts).attemptsMade →
      ∃ e, attempts i = .fail e ∧ isTransient e = true) ∧
    ((processUrlRetry cfg attempts).success = false →
      ∃ e, attempts ((processUrlRetry cfg attempts).attemptsMade - 1) = .fail e ∧
        (processUrlRetry cfg attempts).error = some e ∧
        (isTransient e = false ∨ (processUrlRetry cfg attempts).attemptsMade = n + 1)) ∧
    ((processUrlRetry cfg attempts).success = true →
      attempts ((processUrlRetry cfg attempts).attemptsMade - 1) = .ok) := by
  obtain ⟨⟨h1, h2⟩, h3, hok, hfail⟩ := processUrlRetryAux_spec attempts (jsOrNat cfg 2) 0
  subst hn
  refine ⟨by simpa [processUrlRetry] using h2, ?_, ?_, ?_⟩
  · intro i hi
    exact h3 i (Nat.zero_le i) hi
  · intro hf
    obtain ⟨e, he1, he2, he3⟩ := hfail hf
    refine ⟨e, he1, he2, ?_⟩
    simpa using he3
  · intro hs
    exact (hok hs).1

/-- Witness for `processUrl_retry_policy`: configured retry count 2, first
attempt fails with a transient network error, second attempt succeeds. -/
theorem processUrl_retry_policy_witness :
    (processUrlRetry (some 2)
        (fun i => if i = 0 then .fail "net::ERR_CONNECTION_REFUSED" else .ok)).attemptsMade
      ≤ 3 ∧
    (∃ e, (fun i => if i = 0 then AttemptResult.fail "net::ERR_CONNECTION_REFUSED"
        else AttemptResult.ok) 0 = .fail e ∧ isTransient e = true) :=
  ⟨(processUrl_retry_policy (some 2)
      (fun i => if i = 0 then .fail "net::ERR_CONNECTION_REFUSED" else .ok) 2 rfl).1,
   (processUrl_retry_policy (some 2)
      (fun i => if i = 0 then .fail "net::ERR_CONNECTION_REFUSED" else .ok) 2 rfl).2.1 0
      (by decide)⟩

end SpiderForce

/-! ## Bounded worker group (`processInBatches`, `firecrawl.js` lines 1051-1084) -/

namespace SpiderForce

/-- A value collected in the `results` array of `processInBatches`: either the
value returned by `processFn`, or the `{error, item}` record produced by the
catch block (line 1062). Results are modelled as non-array JS values, on which
the final `.flat()` is the identity (the crawler's per-URL `processFn` returns
plain objects). -/
inductive PIBResult (α β : Type) where
  | val : β → PIBResult α β
  | errRec : String → α → PIBResult α β
deriving Repr, DecidableEq

/-- The task body (lines 1057-1066): run `processFn`, catching a thrown error
into the `{error, item}` record; the error is not re-raised. -/
def runTask (f : α → Except String β) (item : α) : PIBResult α β :=
  match f item with
  | .ok b => .val b
  | .error e => .errRec e item

/-- JS truthiness as applied by the final `.filter(Boolean)` (line 1083):
an `{error, item}` object is always truthy; a value is truthy unless it is one
of the falsy JS values, abstracted by the `isFalsy` predicate. -/
def pibTruthy (isFalsy : β → Bool) : PIBResult α β → Bool
  | .val b => !(isFalsy b)
  | .errRec _ _ => true

/-- A completion schedule entry names positions (into the current pending
list, insertion order) of the tasks that settle during one `await
Promise.race`; the first is the race winner. Normalization keeps the entry
inside bounds and nonempty: the race only resumes once at least one pending
task has settled. -/
def normalizePicks (picks : List Nat) (n : Nat) : List Nat :=
  let l := (picks.filter (· < n)).dedup
  if l.isEmpty then [0] else l

/-- The elements of `l` at the given positions, in the order listed. -/
def pickIdxs (l : List τ) (idxs : List Nat) : List τ :=
  idxs.filterMap (fun i => l.get? i)

/-- Remove the elements at the listed positions (`i` is the position of the
head of `l` in the original pending list). -/
def removeIdxsAux (idxs : List Nat) : Nat → List τ → List τ
  | _, [] => []
  | i, x :: xs =>
    if idxs.contains i then removeIdxsAux idxs (i + 1) xs
    else x :: removeIdxsAux idxs (i + 1) xs

/-- Remove the elements of `l` at the listed positions. -/
def removeIdxs (l : List τ) (idxs : List Nat) : List τ :=
  removeIdxsAux idxs 0 l

/-- Loop state of `processInBatches`: the `results` array, the
`pendingPromises` set (outcomes of unsettled tasks in insertion order), and
the number of race awaits performed so far (the schedule's clock). -/
structure PIBState (α β : Type) where
  results : List (PIBResult α β)
  pending : List (PIBResult α β)
  races : Nat
deriving Repr

/-- One iteration of the `for (const item of items)` loop (lines 1055-1076):
the task is created and added to the pending set; when the pending set has
reached `concurrencyLimit`, the loop awaits `Promise.race`: every task the
schedule settles removes itself from the set (the `finally` of line 1063-1065),
but only the race winner's value is pushed onto `results` — the other settled
values are lost. -/
def pibStep (limit : Nat) (sched : Nat → List Nat) (st : PIBState α β)
    (outcome : PIBResult α β) : PIBState α β :=
  let pending := st.pending ++ [outcome]
  if limit ≤ pending.length then
    let idxs := normalizePicks (sched st.races) pending.length
    { results := st.results ++ (pickIdxs pending idxs).take 1,
      pending := removeIdxs pending idxs,
      races := st.races + 1 }
  else { st with pending := pending }

/-- `processInBatches(items, processFn, concurrencyLimit)` (lines 1051-1084),
parameterized by the completion schedule `sched` (external timing
nondeterminism) and by JS falsiness of result values: after the loop,
`Promise.all` collects the outcomes of the still-pending tasks in insertion
order, and `.flat().filter(Boolean)` drops falsy values (flat is the identity
on the non-array results modelled). -/
def processInBatches (items : List α) (f : α → Except String β) (limit : Nat)
    (sched : Nat → List Nat) (isFalsy : β → Bool) : List (PIBResult α β) :=
  let final := items.foldl (fun st it => pibStep limit sched st (runTask f it))
    ⟨[], [], 0⟩
  (final.results ++ final.pending).filter (pibTruthy isFalsy)

theorem mem_pickIdxs {l : List τ} {idxs : List Nat} {x : τ}
    (h : x ∈ pickIdxs l idxs) : x ∈ l := by
  simp only [pickIdxs, List.mem_filterMap] at h
  obtain ⟨i, _, hg⟩ := h
  exact List.get?_mem hg

theorem mem_removeIdxsAux {idxs : List Nat} {x : τ} :
    ∀ (l : List τ) (i : Nat), x ∈ removeIdxsAux idxs i l → x ∈ l := by
  intro l
  induction l with
  | nil => intro i h; simp [removeIdxsAux] at h
  | cons y ys ih =>
    intro i h
    simp only [removeIdxsAux] at h
    by_cases hc : idxs.contains i
    · simp only [hc, if_true] at h
      exact List.mem_cons_of_mem _ (ih _ h)
    · simp only [hc, Bool.false_eq_true, if_false, List.mem_cons] at h
      rcases h with h | h
      · exact h ▸ List.mem_cons_self _ _
      · exact List.mem_cons_of_mem _ (ih _ h)

theorem length_removeIdxsAux_le {idxs : List Nat} :
    ∀ (l : List τ) (i : Nat), (removeIdxsAux idxs i l).length ≤ l.length := by
  intro l
  induction l with
  | nil => intro i; simp [removeIdxsAux]
  | cons y ys ih =>
    intro i
    simp only [removeIdxsAux]
    by_cases hc : idxs.contains i
    · simp only [hc, if_true, List.length_cons]
      exact Nat.le_succ_of_le (ih (i + 1))
    · simp only [hc, Bool.false_eq_true, if_false, List.length_cons]
      exact Nat.succ_le_succ (ih (i + 1))

theorem length_removeIdxsAux_lt {idxs : List Nat} :
    ∀ (l : List τ) (i j : Nat), j < l.length → idxs.contains (i + j) = true →
      (removeIdxsAux idxs i l).length < l.length := by
  intro l
  induction l with
  | nil => intro i j hj; simp at hj
  | cons y ys ih =>
    intro i j hj hc
    simp only [removeIdxsAux]
    by_cases hci : idxs.contains i
    · simp only [hci, if_true, List.length_cons]
      exact Nat.lt_succ_of_le (length_removeIdxsAux_le ys (i + 1))
    · have hj0 : j ≠ 0 := by
        intro h0
        rw [h0, Nat.add_zero] at hc
        exact hci hc
      obtain ⟨j', rfl⟩ : ∃ j', j = j' + 1 := ⟨j - 1, by omega⟩
      have : i + (j' + 1) = (i + 1) + j' := by omega
      rw [this] at hc
      simp only [hci, Bool.false_eq_true, if_false, List.length_cons]
      exact Nat.succ_lt_succ (ih (i + 1) j' (by simpa using hj) hc)

theorem normalizePicks_sound (picks : List Nat) (n : Nat) (hn : 1 ≤ n) :
    ∃ i ∈ normalizePicks picks n, i < n := by
  simp only [normalizePicks]
  by_cases he : ((picks.filter (· < n)).dedup).isEmpty
  · exact ⟨0, by simp [he], hn⟩
  · rw [List.isEmpty_iff] at he
    simp only [List.isEmpty_iff, he, if_neg, if_false]
    match hl : (picks.filter (· < n)).dedup with
    | [] => exact absurd hl he
    | i :: rest =>
      refine ⟨i, List.mem_cons_self _ _, ?_⟩
      have : i ∈ (picks.filter (· < n)).dedup := hl ▸ List.mem_cons_self _ _
      have := List.mem_dedup.mp this
      have := List.of_mem_filter this
      simpa using this

end SpiderForce

namespace SpiderForce

theorem pibStep_bound (limit : Nat) (sched : Nat → List Nat)
    (st : PIBState α β) (o : PIBResult α β) :
    (pibStep limit sched st o).results.length + (pibStep limit sched st o).pending.length
      ≤ st.results.length + st.pending.length + 1 := by
  simp only [pibStep]
  by_cases hl : limit ≤ (st.pending ++ [o]).length
  · simp only [hl, if_true]
    have hn : 1 ≤ (st.pending ++ [o]).length := by simp
    obtain ⟨i, hi, hilt⟩ := normalizePicks_sound (sched st.races) _ hn
    have hcont : (normalizePicks (sched st.races) (st.pending ++ [o]).length).contains i
        = true := List.elem_iff.mpr hi
    have hrem : (removeIdxs (st.pending ++ [o])
        (normalizePicks (sched st.races) (st.pending ++ [o]).length)).length
        < (st.pending ++ [o]).length :=
      length_removeIdxsAux_lt _ 0 i hilt (by simpa using hcont)
    have htake : ((pickIdxs (st.pending ++ [o])
        (normalizePicks (sched st.races) (st.pending ++ [o]).length)).take 1).length ≤ 1 :=
      le_trans (List.length_take_le _ _) (Nat.le_refl _)
    have hsz : (st.pending ++ [o]).length = st.pending.length + 1 := by simp
    rw [List.length_append]
    omega
  · simp only [hl, if_false]
    simp only [List.length_append, List.length_cons, List.length_nil]
    omega

theorem pibStep_mem (limit : Nat) (sched : Nat → List Nat)
    (st : PIBState α β) (o r : PIBResult α β)
    (h : r ∈ (pibStep limit sched st o).results ++ (pibStep limit sched st o).pending) :
    r ∈ st.results ++ st.pending ∨ r = o := by
  simp only [pibStep] at h
  by_cases hl : limit ≤ (st.pending ++ [o]).length
  · simp only [hl, if_true, List.mem_append] at h
    rcases h with (h | h) | h
    · exact Or.inl (List.mem_append.mpr (Or.inl h))
    · have : r ∈ st.pending ++ [o] :=
        mem_pickIdxs (List.mem_of_mem_take h)
      rcases List.mem_append.mp this with h2 | h2
      · exact Or.inl (List.mem_append.mpr (Or.inr h2))
      · exact Or.inr (by simpa using h2)
    · have : r ∈ st.pending ++ [o] := mem_removeIdxsAux _ _ h
      rcases List.mem_append.mp this with h2 | h2
      · exact Or.inl (List.mem_append.mpr (Or.inr h2))
      · exact Or.inr (by simpa using h2)
  · simp only [hl, if_false, List.mem_append] at h
    rcases h with h | h | h
    · exact Or.inl (List.mem_append.mpr (Or.inl h))
    · exact Or.inl (List.mem_append.mpr (Or.inr h))
    · exact Or.inr (by simpa using h)

theorem pib_loop_spec (limit : Nat) (sched : Nat → List Nat)
    (f : α → Except String β) :
    ∀ (items : List α) (st : PIBState α β),
      ((items.foldl (fun s it => pibStep limit sched s (runTask f it)) st).results.length
        + (items.foldl (fun s it => pibStep limit sched s (runTask f it)) st).pending.length
        ≤ st.results.length + st.pending.length + items.length) ∧
      (∀ r ∈ (items.foldl (fun s it => pibStep limit sched s (runTask f it)) st).results
          ++ (items.foldl (fun s it => pibStep limit sched s (runTask f it)) st).pending,
        r ∈ st.results ++ st.pending ∨ ∃ it ∈ items, r = runTask f it) := by
  intro items
  induction items with
  | nil =>
    intro st
    refine ⟨by simp, ?_⟩
    intro r hr
    exact Or.inl (by simpa using hr)
  | cons it its ih =>
    intro st
    simp only [List.foldl_cons]
    obtain ⟨ihlen, ihmem⟩ := ih (pibStep limit sched st (runTask f it))
    constructor
    · have := pibStep_bound limit sched st (runTask f it)
      simp only [List.length_cons]
      omega
    · intro r hr
      rcases ihmem r hr with h | ⟨it', hit', heq⟩
      · rcases pibStep_mem limit sched st (runTask f it) r h with h2 | h2
        · exact Or.inl h2
        · exact Or.inr ⟨it, List.mem_cons_self _ _, h2⟩
      · exact Or.inr ⟨it', List.mem_cons_of_mem _ hit', heq⟩

theorem pib_loop_congr (limit : Nat) (sched : Nat → List Nat)
    (f g : α → Except String β) :
    ∀ (items : List α) (st : PIBState α β),
      (∀ it ∈ items, runTask f it = runTask g it) →
      items.foldl (fun s it => pibStep limit sched s (runTask f it)) st
        = items.foldl (fun s it => pibStep limit sched s (runTask g it)) st := by
  intro items
  induction items with
  | nil => intro st _; rfl
  | cons it its ih =>
    intro st hfg
    simp only [List.foldl_cons]
    rw [hfg it (List.mem_cons_self _ _)]
    exact ih _ (fun x hx => hfg x (List.mem_cons_of_mem _ hx))

/-- **C5, counterexample.** The claim states that the bounded worker group
returns exactly one result per input item. With `concurrencyLimit = 2`, three
items and a schedule under which both pending tasks settle during the first
`Promise.race` await, the value of item `1` is never pushed: the race resolves
with item `0`'s value, item `1` deletes itself from the pending set in its
`finally`, and the final `Promise.all` no longer sees it. The returned array
has two results for three items, and item `1` has no result. -/
theorem worker_group_lost_result_cex :
    processInBatches [0, 1, 2] (fun n => (Except.ok n : Except String Nat)) 2
      (fun _ => [0, 1]) (fun _ => false) = [.val 0, .val 2] ∧
    PIBResult.val 1 ∉ processInBatches [0, 1, 2]
      (fun n => (Except.ok n : Except String Nat)) 2 (fun _ => [0, 1]) (fun _ => false) ∧
    (processInBatches [0, 1, 2] (fun n => (Except.ok n : Except String Nat)) 2
      (fun _ => [0, 1]) (fun _ => false)).length ≠ ([0, 1, 2] : List Nat).length := by
  refine ⟨by decide, by decide, by decide⟩

/-- **C5, amended.** The bounded worker group returns *at most* one result per
input item (a result can be lost when several tasks settle during a single
race await, and falsy values are dropped by `.filter(Boolean)`); every
returned result is the outcome of running `f` on some input item, where a
thrown error is captured as the `{error, item}` record (`runTask`) rather than
re-raised; and a failing item never cancels its peers: the whole run is
determined by the per-item outcomes alone, so two functions whose outcomes
agree on every item (one of them throwing or not elsewhere has no effect)
produce identical results. -/
theorem worker_group_at_most_one (items : List α) (f g : α → Except String β)
    (limit : Nat) (sched : Nat → List Nat) (isFalsy : β → Bool)
    (hfg : ∀ it ∈ items, runTask f it = runTask g it) :
    (processInBatches items f limit sched isFalsy).length ≤ items.length ∧
    (∀ r ∈ processInBatches items f limit sched isFalsy,
      ∃ it ∈ items, r = runTask f it) ∧
    processInBatches items f limit sched isFalsy
      = processInBatches items g limit sched isFalsy := by
  obtain ⟨hlen, hmem⟩ := pib_loop_spec limit sched f items ⟨[], [], 0⟩
  refine ⟨?_, ?_, ?_⟩
  · calc (processInBatches items f limit sched isFalsy).length
        ≤ ((items.foldl (fun s it => pibStep limit sched s (runTask f it))
            ⟨[], [], 0⟩).results
          ++ (items.foldl (fun s it => pibStep limit sched s (runTask f it))
            ⟨[], [], 0⟩).pending).length := by
          simp only [processInBatches]
          exact List.length_filter_le _ _
      _ ≤ items.length := by
          simp only [List.length_append]
          simpa using hlen
  · intro r hr
    have : r ∈ (items.foldl (fun s it => pibStep limit sched s (runTask f it))
        ⟨[], [], 0⟩).results
        ++ (items.foldl (fun s it => pibStep limit sched s (runTask f it))
        ⟨[], [], 0⟩).pending := by
      simp only [processInBatches] at hr
      exact List.mem_of_mem_filter hr
    rcases hmem r this with h | h
    · simp at h
    · exact h
  · simp only [processInBatches]
    rw [pib_loop_congr limit sched f g items ⟨[], [], 0⟩ hfg]

/-- Witness for `worker_group_at_most_one` at a concrete run where the second
item's function throws: its result is the `{error, item}` record and the first
item's result is untouched. -/
theorem worker_group_at_most_one_witness :
    (processInBatches [10, 20]
        (fun n => if n = 20 then (Except.error "boom" : Except String Nat) else .ok n)
        5 (fun _ => [0]) (fun _ => false)).length ≤ 2 ∧
    (∃ it ∈ [10, 20], (PIBResult.errRec "boom" 20 : PIBResult Nat Nat)
        = runTask (fun n => if n = 20 then (Except.error "boom" : Except String Nat)
            else .ok n) it) :=
  ⟨(worker_group_at_most_one [10, 20]
      (fun n => if n = 20 then (Except.error "boom" : Except String Nat) else .ok n)
      (fun n => if n = 20 then (Except.error "boom" : Except String Nat) else .ok n)
      5 (fun _ => [0]) (fun _ => false) (fun _ _ => rfl)).1,
   (worker_group_at_most_one [10, 20]
      (fun n => if n = 20 then (Except.error "boom" : Except String Nat) else .ok n)
      (fun n => if n = 20 then (Except.error "boom" : Except String Nat) else .ok n)
      5 (fun _ => [0]) (fun _ => false) (fun _ _ => rfl)).2.1
      (PIBResult.errRec "boom" 20) (by decide)⟩

end SpiderForce

/-! ## Job orchestrator (`firecrawl.js` lines 601-893, 1090-1127, 1280-1353) -/

namespace SpiderForce

/-- A `ProcessingResult` as stored in the job's per-URL map (`processUrl`
returns `{url, success, metadata?, content?, error?, timestamp}`; the fields
the claims observe are kept). -/
structure ProcessingResult where
  url : String
  success : Bool
  error : Option String
deriving Repr, DecidableEq

/-- `job.processedUrlsMap`: a JS `Map` keyed by URL, embedded as an
association list in insertion order; `set` replaces in place. -/
abbrev UrlMap := List (String × ProcessingResult)

/-- The keys of the map in insertion order. -/
def mapKeys (m : UrlMap) : List String := m.map Prod.fst

/-- `map.has(k)`. -/
def mapHas (m : UrlMap) (k : String) : Bool := (mapKeys m).any (fun x => x == k)

/-- `map.set(k, v)`: replace in place if the key exists, else append. -/
def mapSet (m : UrlMap) (k : String) (v : ProcessingResult) : UrlMap :=
  if mapHas m k then m.map (fun p => if p.1 == k then (k, v) else p)
  else m ++ [(k, v)]

/-- Number of entries of the map whose key is `k`. -/
def countKey (m : UrlMap) (k : String) : Nat :=
  (m.filter (fun p => p.1 == k)).length

/-- The outcome `processUrl(url, job)` stores for a URL, driven by the oracle
`exec` (the external browser/cleaning/conversion work): a success result or a
failure result, both carrying the URL (lines 970-976 and 1015-1020). -/
def mkResult (exec : String → Bool) (url : String) : ProcessingResult :=
  if exec url then ⟨url, true, none⟩ else ⟨url, false, some "processing error"⟩

/-- The synthetic failure inserted by the reconciliation pass (lines 857-868). -/
def skippedResult (url : String) : ProcessingResult :=
  ⟨url, false, some "URL was skipped during processing"⟩

/-- The shared shape of the per-URL worker (lines 791-804) and of one
reconciliation step: a URL already present in the map is skipped, otherwise
the generated result is inserted. -/
def addIfAbsent (g : String → ProcessingResult) (m : UrlMap) (url : String) : UrlMap :=
  if mapHas m url then m else mapSet m url (g url)

/-- Folding `addIfAbsent` over a URL list (the sequential interleaving of the
batch workers; the job driver derives all counts from the map, and every
started task inserts its result before finishing, so the map evolution is the
fold regardless of the timing of `processInBatches`). -/
def runWorkerFold (g : String → ProcessingResult) (m : UrlMap) (urls : List String) : UrlMap :=
  urls.foldl (addIfAbsent g) m

/-- One batch processed through the bounded worker group (lines 789-806). -/
def runBatchWorker (exec : String → Bool) (m : UrlMap) (batch : List String) : UrlMap :=
  runWorkerFold (mkResult exec) m batch

/-- The reconciliation pass (lines 848-869): every input URL missing from the
map receives the synthetic failure (`missingUrls` is deduplicated through a
`Set`, which the skip-if-present fold reproduces). -/
def reconcile (urls : List String) (m : UrlMap) : UrlMap :=
  runWorkerFold skippedResult m urls

/-- The job fields the claims observe (`createJob` lines 604-634 and
`processJob` lines 755-761): status string, the counters, and the per-URL
map (`urlState` of the spec). -/
structure Job where
  status : String
  total : Nat
  processed : Nat
  success : Nat
  failed : Nat
  urlState : UrlMap
deriving Repr, DecidableEq

/-- The `summary` block of the persisted state and of `getJobStatus`
(lines 1111-1118 and 1294-1302). -/
structure Summary where
  total : Nat
  processed : Nat
  successful : Nat
  failed : Nat
deriving Repr, DecidableEq

/-- One invocation of `saveJobState`: the status under which it was persisted,
its summary, and the number of entries the per-URL map held. -/
structure SaveRecord where
  status : String
  summary : Summary
  urlStateSize : Nat
deriving Repr, DecidableEq

/-- Lines 811-814 and 872-875: recompute `processed`, `success`, `failed` from
the map. -/
def recomputeCounts (job : Job) : Job :=
  { job with
    processed := job.urlState.length,
    success := (job.urlState.filter (fun p => p.2.success)).length,
    failed := (job.urlState.filter (fun p => !p.2.success)).length }

/-- The summary block as persisted/reported. -/
def mkSummary (job : Job) : Summary :=
  ⟨job.total, job.processed, job.success, job.failed⟩

/-- `saveJobState` (lines 1090-1127): for a completed job whose total differs
from its processed count, `job.total` is overwritten to `job.processed`
(mutating the job object) before the state is written. Returns the mutated
job and the persisted record. -/
def saveJobState (job : Job) : Job × SaveRecord :=
  let job :=
    if job.status == "completed" && job.total != job.processed
    then { job with total := job.processed } else job
  (job, ⟨job.status, mkSummary job, job.urlState.length⟩)

/-- The summary returned by `getJobStatus` (lines 1293-1308): a copy of the
job's counters, with `total` forced to `processed` for completed jobs whose
counts differ. -/
def getJobStatusSummary (job : Job) : Summary :=
  let s := mkSummary job
  if job.status == "completed" && s.total != s.processed
  then { s with total := s.processed } else s

/-- `cancelJob` (lines 1333-1353) on an existing job: unconditionally sets
`status = 'cancelled'`. -/
def cancelJobModel (job : Job) : Job := { job with status := "cancelled" }

/-- `for (let i = 0; i < urls.length; i += batchSize) batches.push(urls.slice(i,
i + batchSize))` (lines 766-770), fuel-based; fuel `urls.length` suffices for
`batchSize ≥ 1` (the JS loop does not terminate for `batchSize = 0`, which
`createJob`'s `|| 10` default rules out). -/
def chunkListAux : Nat → List α → Nat → List (List α)
  | 0, _, _ => []
  | _, [], _ => []
  | fuel+1, l, n => l.take n :: chunkListAux fuel (l.drop n) n

/-- Partition a list into batches of size `n`. -/
def chunkList (l : List α) (n : Nat) : List (List α) :=
  chunkListAux l.length l n

/-- State threaded through the batch loop: the job, the persisted records in
order, and how many batches were executed. -/
structure DriverState where
  job : Job
  saves : List SaveRecord
  batchesRun : Nat
deriving Repr, DecidableEq

/-- One iteration of the batch loop of `processJob` (lines 784-836): run the
batch through the worker group, recompute the counters from the map, observe a
cancellation that arrived during the batch (`cancelAt = some i` models
`cancelJob` being invoked while batch `i` is in flight, so the driver sees
`status === 'cancelled'` from this batch's save onwards), and persist. Webhook
sends and the inter-batch delay do not affect the job state and are omitted. -/
def jobAfterBatch (exec : String → Bool) (cancelAt : Option Nat) (i : Nat)
    (st : DriverState) (batch : List String) : Job :=
  let job := recomputeCounts
    { st.job with urlState := runBatchWorker exec st.job.urlState batch }
  if cancelAt == some i then cancelJobModel job else job

/-- The rest of one loop iteration: persist the job reached after the batch
(line 824) and record the executed batch. -/
def runBatchesStep (exec : String → Bool) (cancelAt : Option Nat) (i : Nat)
    (st : DriverState) (batch : List String) : DriverState :=
  let saved := saveJobState (jobAfterBatch exec cancelAt i st batch)
  ⟨saved.1, st.saves ++ [saved.2], st.batchesRun + 1⟩

/-- The batch loop of `processJob` (lines 775-837): batches run sequentially;
the cancellation check at the batch boundary (line 779) stops the loop. -/
def runBatches (exec : String → Bool) (cancelAt : Option Nat) :
    List (List String) → Nat → DriverState → DriverState
  | [], _, st => st
  | batch :: rest, i, st =>
    if st.job.status == "cancelled" then st
    else runBatches exec cancelAt rest (i + 1) (runBatchesStep exec cancelAt i st batch)

/-- The observable outcome of one `processJob` run. -/
structure RunOutcome where
  job : Job
  saves : List SaveRecord
  batchesRun : Nat
  webhookSent : Bool
  initialTotal : Nat
deriving Repr, DecidableEq

/-- Lines 755-770 followed by the batch loop: job state initialized with
`total = urls.length` (line 756), URLs chunked, batches run. -/
def driverAfterBatches (urls : List String) (exec : String → Bool)
    (batchSize : Nat) (cancelAt : Option Nat) : DriverState :=
  runBatches exec cancelAt (chunkList urls batchSize) 0
    ⟨⟨"processing", urls.length, 0, 0, 0, []⟩, [], 0⟩

/-- The consistency check of lines 844-870: when `success + failed !== total`
the reconciliation pass inserts synthetic failures for the missing URLs. -/
def jobReconciled (urls : List String) (j : Job) : Job :=
  if j.success + j.failed != j.total
  then { j with urlState := reconcile urls j.urlState } else j

/-- `processJob` (lines 735-893), embedded over the oracle `exec` for the
per-URL pipeline and the enumerated `urls` (the sitemap fetch or the provided
list). With no URLs the driver throws `No valid URLs found` and the catch
block (lines 887-892) marks the job failed and persists — the only way the
inner try can throw, since every later awaited step catches its own errors.
Otherwise: `job.total = urls.length` (recorded as `initialTotal`), the batch
loop runs, and the finalization (lines 839-886) unconditionally sets
`status = 'completed'`, reconciles missing URLs, recomputes counts, persists,
and sends the final webhook whenever one is configured. -/
def processJob (urls : List String) (exec : String → Bool) (batchSize : Nat)
    (cancelAt : Option Nat) (hasWebhook : Bool) : RunOutcome :=
  if urls.isEmpty then
    let saved := saveJobState ⟨"failed", 0, 0, 0, 0, []⟩
    ⟨saved.1, [saved.2], 0, false, 0⟩
  else
    let st := driverAfterBatches urls exec batchSize cancelAt
    let saved := saveJobState
      (recomputeCounts (jobReconciled urls { st.job with status := "completed" }))
    ⟨saved.1, st.saves ++ [saved.2], st.batchesRun, hasWebhook, urls.length⟩

end SpiderForce

namespace SpiderForce

theorem mapHas_iff_mem {m : UrlMap} {k : String} :
    mapHas m k = true ↔ k ∈ mapKeys m := by
  simp only [mapHas, List.any_eq_true, beq_iff_eq]
  constructor
  · rintro ⟨x, hx, rfl⟩; exact hx
  · intro h; exact ⟨k, h, rfl⟩

theorem mapKeys_mapSet (m : UrlMap) (k : String) (v : ProcessingResult) :
    mapKeys (mapSet m k v) = if mapHas m k then mapKeys m else mapKeys m ++ [k] := by
  by_cases h : mapHas m k
  · simp only [mapSet, h, if_true, mapKeys, List.map_map]
    refine List.map_congr_left ?_
    intro p _
    by_cases hp : p.1 == k
    · simp [hp, (beq_iff_eq.mp hp).symm]
    · have hne : ¬ p.1 = k := fun he => hp (beq_iff_eq.mpr he)
      simp [hp, hne]
  · simp [mapSet, h, mapKeys]

theorem nodup_mapKeys_mapSet {m : UrlMap} {k : String} {v : ProcessingResult}
    (h : (mapKeys m).Nodup) : (mapKeys (mapSet m k v)).Nodup := by
  rw [mapKeys_mapSet]
  by_cases hk : mapHas m k
  · simpa [hk] using h
  · have : k ∉ mapKeys m := fun hmem => hk (mapHas_iff_mem.mpr hmem)
    simp only [hk, Bool.false_eq_true, if_false]
    simp [List.nodup_append, h, this]

theorem countKey_eq_zero {m : UrlMap} {k : String} (h : mapHas m k = false) :
    countKey m k = 0 := by
  simp only [countKey, List.length_eq_zero]
  rw [List.filter_eq_nil_iff]
  intro p hp hbeq
  have hk : k ∈ mapKeys m := by
    have hpk : p.1 = k := beq_iff_eq.mp hbeq
    exact hpk ▸ List.mem_map_of_mem _ hp
  have htrue := mapHas_iff_mem.mpr hk
  rw [h] at htrue
  exact Bool.false_ne_true htrue

theorem countKey_eq_one {m : UrlMap} {k : String}
    (hnd : (mapKeys m).Nodup) (h : mapHas m k = true) : countKey m k = 1 := by
  induction m with
  | nil => simp [mapHas, mapKeys] at h
  | cons p m ih =>
    simp only [mapKeys, List.map_cons, List.nodup_cons] at hnd
    obtain ⟨hp, hm⟩ := hnd
    by_cases hpk : p.1 == k
    · have hkeq : p.1 = k := beq_iff_eq.mp hpk
      have hnot : mapHas m k = false := by
        rw [Bool.eq_false_iff]
        intro hc
        exact hp (hkeq ▸ mapHas_iff_mem.mp hc)
      simp only [countKey, List.filter_cons, hpk, if_true, List.length_cons]
      have := countKey_eq_zero hnot
      simp only [countKey] at this
      omega
    · have hmk : mapHas m k = true := by
        rw [mapHas_iff_mem] at h ⊢
        simp only [mapKeys, List.map_cons, List.mem_cons] at h
        rcases h with h | h
        · exact absurd (beq_iff_eq.mpr h.symm) (by simpa using hpk)
        · exact h
      simp only [countKey, List.filter_cons, hpk]
      exact ih hm hmk

theorem mapHas_addIfAbsent {g : String → ProcessingResult} {m : UrlMap}
    {url k : String} :
    mapHas (addIfAbsent g m url) k = true ↔ mapHas m k = true ∨ k = url := by
  by_cases h : mapHas m url
  · simp only [addIfAbsent, h, if_true]
    constructor
    · exact Or.inl
    · rintro (hk | rfl)
      · exact hk
      · exact h
  · simp only [addIfAbsent, h, Bool.false_eq_true, if_false]
    rw [mapHas_iff_mem, mapKeys_mapSet]
    simp only [h, Bool.false_eq_true, if_false, List.mem_append, List.mem_singleton]
    rw [← mapHas_iff_mem]

theorem nodup_addIfAbsent {g : String → ProcessingResult} {m : UrlMap} {url : String}
    (h : (mapKeys m).Nodup) : (mapKeys (addIfAbsent g m url)).Nodup := by
  by_cases hu : mapHas m url
  · simpa [addIfAbsent, hu] using h
  · simp only [addIfAbsent, hu, Bool.false_eq_true, if_false]
    exact nodup_mapKeys_mapSet h

theorem mapHas_runWorkerFold {g : String → ProcessingResult} :
    ∀ (urls : List String) (m : UrlMap) (k : String),
      mapHas (runWorkerFold g m urls) k = true ↔ mapHas m k = true ∨ k ∈ urls := by
  intro urls
  induction urls with
  | nil => intro m k; simp [runWorkerFold]
  | cons u us ih =>
    intro m k
    simp only [runWorkerFold, List.foldl_cons]
    rw [show us.foldl (addIfAbsent g) (addIfAbsent g m u) = runWorkerFold g (addIfAbsent g m u) us from rfl]
    rw [ih]
    rw [mapHas_addIfAbsent]
    simp only [List.mem_cons]
    tauto

theorem nodup_runWorkerFold {g : String → ProcessingResult} :
    ∀ (urls : List String) (m : UrlMap), (mapKeys m).Nodup →
      (mapKeys (runWorkerFold g m urls)).Nodup := by
  intro urls
  induction urls with
  | nil => intro m h; simpa [runWorkerFold] using h
  | cons u us ih =>
    intro m h
    simp only [runWorkerFold, List.foldl_cons]
    exact ih _ (nodup_addIfAbsent h)

theorem length_filter_partition (l : List α) (p : α → Bool) :
    (l.filter p).length + (l.filter (fun x => !(p x))).length = l.length := by
  induction l with
  | nil => simp
  | cons x xs ih =>
    cases h : p x <;> simp [List.filter_cons, h] <;> omega

theorem keys_complete {keys urls : List String} (hnd : keys.Nodup)
    (hsub : ∀ x ∈ keys, x ∈ urls) (hlen : urls.length ≤ keys.length) :
    ∀ u ∈ urls, u ∈ keys := by
  intro u hu
  have hsubF : keys.toFinset ⊆ urls.toFinset := by
    intro x hx
    rw [List.mem_toFinset] at hx ⊢
    exact hsub x hx
  have hcardK : keys.toFinset.card = keys.length := List.toFinset_card_of_nodup hnd
  have hcardU : urls.toFinset.card ≤ urls.length := List.toFinset_card_le urls
  have : keys.toFinset = urls.toFinset :=
    Finset.eq_of_subset_of_card_le hsubF (by omega)
  rw [← List.mem_toFinset, ← this, List.mem_toFinset] at hu
  exact hu

end SpiderForce

namespace SpiderForce

/-- Invariant threaded through the batch loop: the status is the driver's
(`processing`, or `cancelled` after `cancelJob`), the total is the enumerated
count and is never touched inside the loop, the map's keys are distinct URLs
drawn from the input, and the counters are the recomputed values. -/
structure LoopInv (N : Nat) (urls : List String) (st : DriverState) : Prop where
  status_ok : st.job.status = "processing" ∨ st.job.status = "cancelled"
  total_eq : st.job.total = N
  keys_nodup : (mapKeys st.job.urlState).Nodup
  keys_sub : ∀ k ∈ mapKeys st.job.urlState, k ∈ urls
  processed_eq : st.job.processed = st.job.urlState.length
  success_eq : st.job.success = (st.job.urlState.filter (fun p => p.2.success)).length
  failed_eq : st.job.failed = (st.job.urlState.filter (fun p => !p.2.success)).length

theorem saveJobState_not_completed {job : Job} (h : job.status ≠ "completed") :
    saveJobState job = (job, ⟨job.status, mkSummary job, job.urlState.length⟩) := by
  simp only [saveJobState]
  have hb : (job.status == "completed") = false := beq_eq_false_iff_ne.mpr h
  simp [hb]

theorem runBatches_of_cancelled (exec : String → Bool) (cAt : Option Nat)
    (batches : List (List String)) (i : Nat) (st : DriverState)
    (h : st.job.status = "cancelled") :
    runBatches exec cAt batches i st = st := by
  cases batches with
  | nil => rfl
  | cons b rest =>
    simp only [runBatches, h]
    simp

theorem jobAfterBatch_urlState (exec : String → Bool) (cAt : Option Nat) (i : Nat)
    (st : DriverState) (batch : List String) :
    (jobAfterBatch exec cAt i st batch).urlState
      = runBatchWorker exec st.job.urlState batch := by
  by_cases hca : (cAt == some i) = true <;>
    simp [jobAfterBatch, hca, cancelJobModel, recomputeCounts]

theorem jobAfterBatch_total (exec : String → Bool) (cAt : Option Nat) (i : Nat)
    (st : DriverState) (batch : List String) :
    (jobAfterBatch exec cAt i st batch).total = st.job.total := by
  by_cases hca : (cAt == some i) = true <;>
    simp [jobAfterBatch, hca, cancelJobModel, recomputeCounts]

theorem jobAfterBatch_counts (exec : String → Bool) (cAt : Option Nat) (i : Nat)
    (st : DriverState) (batch : List String) :
    (jobAfterBatch exec cAt i st batch).processed
        = (runBatchWorker exec st.job.urlState batch).length ∧
    (jobAfterBatch exec cAt i st batch).success
        = ((runBatchWorker exec st.job.urlState batch).filter
            (fun p => p.2.success)).length ∧
    (jobAfterBatch exec cAt i st batch).failed
        = ((runBatchWorker exec st.job.urlState batch).filter
            (fun p => !p.2.success)).length := by
  by_cases hca : (cAt == some i) = true <;>
    simp [jobAfterBatch, hca, cancelJobModel, recomputeCounts]

theorem jobAfterBatch_status_cancel (exec : String → Bool) (cAt : Option Nat)
    (i : Nat) (st : DriverState) (batch : List String)
    (hca : (cAt == some i) = true) :
    (jobAfterBatch exec cAt i st batch).status = "cancelled" := by
  simp [jobAfterBatch, hca, cancelJobModel]

theorem jobAfterBatch_status_keep (exec : String → Bool) (cAt : Option Nat)
    (i : Nat) (st : DriverState) (batch : List String)
    (hca : (cAt == some i) = false) :
    (jobAfterBatch exec cAt i st batch).status = st.job.status := by
  simp [jobAfterBatch, hca, recomputeCounts]

theorem jobAfterBatch_status_ok (exec : String → Bool) (cAt : Option Nat)
    (i : Nat) (st : DriverState) (batch : List String)
    (hproc : st.job.status = "processing") :
    (jobAfterBatch exec cAt i st batch).status = "processing" ∨
    (jobAfterBatch exec cAt i st batch).status = "cancelled" := by
  by_cases hca : (cAt == some i) = true
  · exact Or.inr (jobAfterBatch_status_cancel exec cAt i st batch hca)
  · exact Or.inl ((jobAfterBatch_status_keep exec cAt i st batch
      (by simpa using hca)).trans hproc)

theorem runBatchesStep_eq (exec : String → Bool) (cAt : Option Nat) (i : Nat)
    (st : DriverState) (batch : List String)
    (hproc : st.job.status = "processing") :
    runBatchesStep exec cAt i st batch =
      ⟨jobAfterBatch exec cAt i st batch,
       st.saves ++ [⟨(jobAfterBatch exec cAt i st batch).status,
         mkSummary (jobAfterBatch exec cAt i st batch),
         (jobAfterBatch exec cAt i st batch).urlState.length⟩],
       st.batchesRun + 1⟩ := by
  have hne : (jobAfterBatch exec cAt i st batch).status ≠ "completed" := by
    rcases jobAfterBatch_status_ok exec cAt i st batch hproc with h | h <;>
      rw [h] <;> decide
  simp only [runBatchesStep]
  rw [saveJobState_not_completed hne]

theorem runBatchesStep_spec {N : Nat} {urls : List String} (exec : String → Bool)
    (cAt : Option Nat) (i : Nat) (st : DriverState) (batch : List String)
    (hinv : LoopInv N urls st) (hbsub : ∀ x ∈ batch, x ∈ urls)
    (hproc : st.job.status = "processing") :
    LoopInv N urls (runBatchesStep exec cAt i st batch) ∧
    ((runBatchesStep exec cAt i st batch).job.status = "processing" ∨
      (runBatchesStep exec cAt i st batch).job.status = "cancelled") ∧
    ((cAt == some i) = false →
      (runBatchesStep exec cAt i st batch).job.status = "processing") ∧
    ((cAt == some i) = true →
      (runBatchesStep exec cAt i st batch).job.status = "cancelled") ∧
    (∃ sv, (runBatchesStep exec cAt i st batch).saves = st.saves ++ [sv] ∧
      (sv.status = "processing" ∨ sv.status = "cancelled")) ∧
    (runBatchesStep exec cAt i st batch).batchesRun = st.batchesRun + 1 := by
  have hm' : ∀ k ∈ mapKeys (runBatchWorker exec st.job.urlState batch), k ∈ urls := by
    intro k hk
    have := mapHas_iff_mem.mpr hk
    rcases (mapHas_runWorkerFold batch st.job.urlState k).mp this with h2 | h2
    · exact hinv.keys_sub k (mapHas_iff_mem.mp h2)
    · exact hbsub k h2
  have hmnd : (mapKeys (runBatchWorker exec st.job.urlState batch)).Nodup :=
    nodup_runWorkerFold batch st.job.urlState hinv.keys_nodup
  rw [runBatchesStep_eq exec cAt i st batch hproc]
  obtain ⟨hp, hs, hf⟩ := jobAfterBatch_counts exec cAt i st batch
  have hst := jobAfterBatch_status_ok exec cAt i st batch hproc
  have hu := jobAfterBatch_urlState exec cAt i st batch
  refine ⟨?_, hst, ?_, ?_, ⟨_, rfl, hst⟩, rfl⟩
  · exact ⟨hst, (jobAfterBatch_total exec cAt i st batch).trans hinv.total_eq,
      hu ▸ hmnd, hu ▸ hm', hu ▸ hp, hu ▸ hs, hu ▸ hf⟩
  · intro hcaf
    exact (jobAfterBatch_status_keep exec cAt i st batch hcaf).trans hproc
  · intro hca
    exact jobAfterBatch_status_cancel exec cAt i st batch hca

end SpiderForce

namespace SpiderForce

theorem runBatches_inv {N : Nat} {urls : List String} (exec : String → Bool)
    (cAt : Option Nat) :
    ∀ (batches : List (List String)) (i : Nat) (st : DriverState),
      LoopInv N urls st → (∀ b ∈ batches, ∀ x ∈ b, x ∈ urls) →
      LoopInv N urls (runBatches exec cAt batches i st) ∧
      (∀ sv ∈ (runBatches exec cAt batches i st).saves,
        sv ∈ st.saves ∨ sv.status = "processing" ∨ sv.status = "cancelled") := by
  intro batches
  induction batches with
  | nil =>
    intro i st hinv _
    exact ⟨hinv, fun sv hsv => Or.inl hsv⟩
  | cons b rest ih =>
    intro i st hinv hsub
    by_cases hc : st.job.status = "cancelled"
    · rw [runBatches_of_cancelled exec cAt _ i st hc]
      exact ⟨hinv, fun sv hsv => Or.inl hsv⟩
    · have hproc : st.job.status = "processing" := by
        rcases hinv.status_ok with h | h
        · exact h
        · exact absurd h hc
      have hcb : (st.job.status == "cancelled") = false := by
        rw [hproc]; decide
      have hun : runBatches exec cAt (b :: rest) i st
          = runBatches exec cAt rest (i + 1) (runBatchesStep exec cAt i st b) := by
        simp only [runBatches, hcb, Bool.false_eq_true, if_false]
      rw [hun]
      obtain ⟨hinv', _, _, _, ⟨sv0, hsv0, hsv0st⟩, _⟩ :=
        runBatchesStep_spec exec cAt i st b hinv
          (hsub b (List.mem_cons_self _ _)) hproc
      obtain ⟨hinv'', hsaves''⟩ := ih (i + 1) (runBatchesStep exec cAt i st b) hinv'
        (fun b' hb' => hsub b' (List.mem_cons_of_mem _ hb'))
      refine ⟨hinv'', ?_⟩
      intro sv hsv
      rcases hsaves'' sv hsv with hmem | hst
      · rw [hsv0] at hmem
        rcases List.mem_append.mp hmem with h2 | h2
        · exact Or.inl h2
        · rw [List.mem_singleton] at h2
          subst h2
          exact Or.inr hsv0st
      · exact Or.inr hst

theorem mem_chunkListAux :
    ∀ (fuel : Nat) (l : List α) (n : Nat) (b : List α),
      b ∈ chunkListAux fuel l n → ∀ x ∈ b, x ∈ l := by
  intro fuel
  induction fuel with
  | zero => intro l n b hb; simp [chunkListAux] at hb
  | succ fuel ih =>
    intro l n b hb x hx
    match l with
    | [] => simp [chunkListAux] at hb
    | y :: ys =>
      simp only [chunkListAux, List.mem_cons] at hb
      rcases hb with rfl | hb
      · exact List.take_subset _ _ hx
      · exact List.drop_subset _ _ (ih _ n b hb x hx)

theorem runBatches_count (exec : String → Bool) (c : Nat) :
    ∀ (batches : List (List String)) (i : Nat) (st : DriverState),
      st.job.status = "processing" → i ≤ c →
      (runBatches exec (some c) batches i st).batchesRun
          = st.batchesRun + Nat.min (c + 1 - i) batches.length ∧
      (runBatches exec (some c) batches i st).saves.length
          = st.saves.length + Nat.min (c + 1 - i) batches.length := by
  intro batches
  induction batches with
  | nil =>
    intro i st _ _
    simp [runBatches]
  | cons b rest ih =>
    intro i st hproc hic
    have hcb : (st.job.status == "cancelled") = false := by
      rw [hproc]; decide
    have hun : runBatches exec (some c) (b :: rest) i st
        = runBatches exec (some c) rest (i + 1) (runBatchesStep exec (some c) i st b) := by
      simp only [runBatches, hcb, Bool.false_eq_true, if_false]
    rw [hun]
    rw [runBatchesStep_eq exec (some c) i st b hproc]
    by_cases hci : c = i
    · have hca : ((some c : Option Nat) == some i) = true := by
        subst hci; simp
      have hcanc := jobAfterBatch_status_cancel exec (some c) i st b hca
      rw [runBatches_of_cancelled exec (some c) rest (i + 1) _ hcanc]
      have hmin : Nat.min (c + 1 - i) (b :: rest).length = 1 := by
        have h1 : c + 1 - i = 1 := by omega
        rw [h1, List.length_cons]
        exact Nat.min_eq_left (by omega)
      rw [hmin]
      constructor
      · show st.batchesRun + 1 = st.batchesRun + 1
        rfl
      · show (st.saves ++ [_]).length = st.saves.length + 1
        simp
    · have hca : ((some c : Option Nat) == some i) = false :=
        beq_eq_false_iff_ne.mpr (by simpa using hci)
      have hkeep : (jobAfterBatch exec (some c) i st b).status = "processing" :=
        (jobAfterBatch_status_keep exec (some c) i st b hca).trans hproc
      obtain ⟨ih1, ih2⟩ := ih (i + 1)
        ⟨jobAfterBatch exec (some c) i st b,
         st.saves ++ [⟨(jobAfterBatch exec (some c) i st b).status,
           mkSummary (jobAfterBatch exec (some c) i st b),
           (jobAfterBatch exec (some c) i st b).urlState.length⟩],
         st.batchesRun + 1⟩ hkeep (by omega)
      have hmin : Nat.min (c + 1 - i) (b :: rest).length
          = Nat.min (c + 1 - (i + 1)) rest.length + 1 := by
        have h1 : c + 1 - i = (c + 1 - (i + 1)) + 1 := by omega
        rw [h1, List.length_cons]
        exact Nat.succ_min_succ _ _
      rw [ih1, ih2, hmin]
      constructor
      · show st.batchesRun + 1 + _ = st.batchesRun + _
        omega
      · show (st.saves ++ [_]).length + _ = st.saves.length + _
        simp only [List.length_append, List.length_cons, List.length_nil]
        omega

end SpiderForce

namespace SpiderForce

theorem saveJobState_fst_urlState (j : Job) :
    (saveJobState j).1.urlState = j.urlState := by
  simp only [saveJobState]
  by_cases h : (j.status == "completed" && j.total != j.processed) = true <;> simp [h]

theorem saveJobState_fst_status (j : Job) :
    (saveJobState j).1.status = j.status := by
  simp only [saveJobState]
  by_cases h : (j.status == "completed" && j.total != j.processed) = true <;> simp [h]

theorem saveJobState_completed_snd (j : Job) (h : j.status = "completed") :
    (saveJobState j).2
      = ⟨"completed", ⟨j.processed, j.processed, j.success, j.failed⟩,
         j.urlState.length⟩ := by
  simp only [saveJobState, h]
  by_cases hc : j.total = j.processed
  · have : (("completed" : String) == "completed" && j.total != j.processed) = false := by
      simp [hc]
    simp [this, mkSummary, h, hc]
  · have : (("completed" : String) == "completed" && j.total != j.processed) = true := by
      simp [bne_iff_ne, hc]
    simp [this, mkSummary, h, hc]

theorem jobReconciled_complete (urls : List String) (j : Job)
    (hnd : (mapKeys j.urlState).Nodup)
    (hsub : ∀ k ∈ mapKeys j.urlState, k ∈ urls)
    (hs : j.success = (j.urlState.filter (fun p => p.2.success)).length)
    (hf : j.failed = (j.urlState.filter (fun p => !p.2.success)).length)
    (ht : j.total = urls.length) :
    (mapKeys (jobReconciled urls j).urlState).Nodup ∧
    ∀ url ∈ urls, mapHas (jobReconciled urls j).urlState url = true := by
  by_cases hcond : (j.success + j.failed != j.total) = true
  · simp only [jobReconciled, hcond, if_true]
    exact ⟨nodup_runWorkerFold urls j.urlState hnd,
      fun url hu => (mapHas_runWorkerFold urls j.urlState url).mpr (Or.inr hu)⟩
  · have hceq : j.success + j.failed = j.total := by
      rw [Bool.not_eq_true] at hcond
      exact bne_eq_false_iff_eq.mp hcond
    have hcondf : (j.success + j.failed != j.total) = false := by
      rw [Bool.not_eq_true] at hcond; exact hcond
    simp only [jobReconciled, hcondf, Bool.false_eq_true, if_false]
    have hlen : j.urlState.length = urls.length := by
      have hpart := length_filter_partition j.urlState (fun p => p.2.success)
      rw [hs, hf, ht] at hceq
      omega
    have hkeyslen : urls.length ≤ (mapKeys j.urlState).length := by
      simp only [mapKeys, List.length_map]
      omega
    refine ⟨hnd, fun url hu => ?_⟩
    exact mapHas_iff_mem.mpr (keys_complete hnd hsub hkeyslen url hu)

theorem processJob_final_map (urls : List String) (exec : String → Bool)
    (bs : Nat) (cAt : Option Nat) (hw : Bool) :
    (mapKeys (processJob urls exec bs cAt hw).job.urlState).Nodup ∧
    ∀ url ∈ urls, mapHas (processJob urls exec bs cAt hw).job.urlState url = true := by
  by_cases hne : urls.isEmpty = true
  · have hnil : urls = [] := by
      cases urls with
      | nil => rfl
      | cons a l => simp [List.isEmpty] at hne
    subst hnil
    constructor
    · have : (processJob [] exec bs cAt hw).job.urlState = [] := by
        simp [processJob, saveJobState]
      rw [this]
      simp [mapKeys]
    · intro url hu
      simp at hu
  · have hbf : urls.isEmpty = false := by simpa using hne
    have hinit : LoopInv urls.length urls
        ⟨⟨"processing", urls.length, 0, 0, 0, []⟩, [], 0⟩ := by
      refine ⟨Or.inl rfl, rfl, List.nodup_nil, ?_, rfl, rfl, rfl⟩
      intro k hk
      simp [mapKeys] at hk
    obtain ⟨hinv, _⟩ := runBatches_inv exec cAt (chunkList urls bs) 0 _ hinit
      (fun b hb x hx => mem_chunkListAux urls.length urls bs b hb x hx)
    have hrec := jobReconciled_complete urls
      { (driverAfterBatches urls exec bs cAt).job with status := "completed" }
      hinv.keys_nodup hinv.keys_sub hinv.success_eq hinv.failed_eq hinv.total_eq
    have hfin : (processJob urls exec bs cAt hw).job.urlState
        = (jobReconciled urls
            { (driverAfterBatches urls exec bs cAt).job with status := "completed" }).urlState := by
      simp only [processJob, hbf, Bool.false_eq_true, if_false]
      rw [saveJobState_fst_urlState]
      rfl
    rw [hfin]
    exact hrec

end SpiderForce

namespace SpiderForce

theorem jobReconciled_status (urls : List String) (j : Job) :
    (jobReconciled urls j).status = j.status := by
  by_cases h : (j.success + j.failed != j.total) = true <;> simp [jobReconciled, h]

/-- **C1, counterexample.** The claim requires every terminal job's
persisted/reported summary to satisfy `total == processed == successful +
failed` and `|urlState| == total` — with `cancelled` listed among the terminal
statuses. A two-URL job with batch size 1 cancelled during batch 0 persists a
record with status `cancelled`, `total = 2` but `processed = 1` and one map
entry: the closure fails on a cancelled summary (only the later finalization,
which re-labels the job `completed`, restores it). -/
theorem count_closure_cancelled_cex :
    ∃ sv ∈ (processJob ["a", "b"] (fun _ => true) 1 (some 0) true).saves,
      sv.status = "cancelled" ∧ sv.summary.total ≠ sv.summary.processed ∧
      sv.urlStateSize ≠ sv.summary.total := by
  decide

/-- **C1, amended.** For every persisted summary whose status is `completed`
or `failed` (the statuses under which the driver actually finishes — a
mid-run cancellation is later overwritten by the finalization), the count
closure holds: `total == processed == successful + failed` and the number of
`urlState` entries equals `total`. Persisted summaries with status
`cancelled` may violate it (see the counterexample). -/
theorem count_closure_completed_failed (urls : List String)
    (exec : String → Bool) (bs : Nat) (cAt : Option Nat) (hw : Bool)
    (hbs : 1 ≤ bs) :
    ∀ sv ∈ (processJob urls exec bs cAt hw).saves,
      sv.status = "completed" ∨ sv.status = "failed" →
      sv.summary.total = sv.summary.processed ∧
      sv.summary.processed = sv.summary.successful + sv.summary.failed ∧
      sv.urlStateSize = sv.summary.total := by
  by_cases hne : urls.isEmpty = true
  · have hnil : urls = [] := by
      cases urls with
      | nil => rfl
      | cons a l => simp [List.isEmpty] at hne
    subst hnil
    intro sv hsv _
    have : (processJob [] exec bs cAt hw).saves = [⟨"failed", ⟨0, 0, 0, 0⟩, 0⟩] := by
      simp [processJob, saveJobState, mkSummary]
    rw [this] at hsv
    rw [List.mem_singleton] at hsv
    subst hsv
    exact ⟨rfl, rfl, rfl⟩
  · have hbf : urls.isEmpty = false := by simpa using hne
    have hinit : LoopInv urls.length urls
        ⟨⟨"processing", urls.length, 0, 0, 0, []⟩, [], 0⟩ := by
      refine ⟨Or.inl rfl, rfl, List.nodup_nil, ?_, rfl, rfl, rfl⟩
      intro k hk
      simp [mapKeys] at hk
    obtain ⟨_, hsaves⟩ := runBatches_inv exec cAt (chunkList urls bs) 0 _ hinit
      (fun b hb x hx => mem_chunkListAux urls.length urls bs b hb x hx)
    have hsplit : (processJob urls exec bs cAt hw).saves
        = (driverAfterBatches urls exec bs cAt).saves
          ++ [(saveJobState (recomputeCounts (jobReconciled urls
              { (driverAfterBatches urls exec bs cAt).job with
                status := "completed" }))).2] := by
      simp only [processJob, hbf, Bool.false_eq_true, if_false]
    intro sv hsv hterm
    rw [hsplit, List.mem_append] at hsv
    rcases hsv with hsv | hsv
    · rcases hsaves sv hsv with hmem | hst | hst
      · simp at hmem
      · rcases hterm with ht | ht <;> (rw [hst] at ht; exact absurd ht (by decide))
      · rcases hterm with ht | ht <;> (rw [hst] at ht; exact absurd ht (by decide))
    · rw [List.mem_singleton] at hsv
      subst hsv
      have hstat : (recomputeCounts (jobReconciled urls
          { (driverAfterBatches urls exec bs cAt).job with
            status := "completed" })).status = "completed" := by
        show (jobReconciled urls _).status = "completed"
        rw [jobReconciled_status]
      rw [saveJobState_completed_snd _ hstat]
      refine ⟨rfl, ?_, ?_⟩
      · show (recomputeCounts _).processed
            = (recomputeCounts _).success + (recomputeCounts _).failed
        simp only [recomputeCounts]
        exact (length_filter_partition _ _).symm
      · show (recomputeCounts _).urlState.length = (recomputeCounts _).processed
        simp only [recomputeCounts]

/-- Witness for `count_closure_completed_failed` at a completed two-URL job. -/
theorem count_closure_completed_failed_witness :
    (⟨"completed", ⟨2, 2, 2, 0⟩, 2⟩ : SaveRecord).summary.total
        = (⟨"completed", ⟨2, 2, 2, 0⟩, 2⟩ : SaveRecord).summary.processed ∧
    (⟨"completed", ⟨2, 2, 2, 0⟩, 2⟩ : SaveRecord).summary.processed
        = (⟨"completed", ⟨2, 2, 2, 0⟩, 2⟩ : SaveRecord).summary.successful
          + (⟨"completed", ⟨2, 2, 2, 0⟩, 2⟩ : SaveRecord).summary.failed ∧
    (⟨"completed", ⟨2, 2, 2, 0⟩, 2⟩ : SaveRecord).urlStateSize
        = (⟨"completed", ⟨2, 2, 2, 0⟩, 2⟩ : SaveRecord).summary.total :=
  count_closure_completed_failed ["a", "b"] (fun _ => true) 2 none false
    (by decide) ⟨"completed", ⟨2, 2, 2, 0⟩, 2⟩ (by decide) (Or.inl rfl)

end SpiderForce

namespace SpiderForce

/-- **C2, counterexample.** The claim states that after `cancelJob` the status
becomes and *remains* `cancelled` and no final webhook is sent. In the code,
after the batch loop breaks, the finalization (line 840) unconditionally sets
`status = 'completed'` and the final webhook is sent whenever one is
configured (line 882): for a two-URL job cancelled during batch 0, the final
status is `completed` and the webhook fires. -/
theorem cancel_overwritten_cex :
    (processJob ["a", "b"] (fun _ => true) 1 (some 0) true).job.status ≠ "cancelled" ∧
    (processJob ["a", "b"] (fun _ => true) 1 (some 0) true).job.status = "completed" ∧
    (processJob ["a", "b"] (fun _ => true) 1 (some 0) true).webhookSent = true := by
  decide

/-- **C2, amended.** When `cancelJob` is invoked while batch `c` of a running
job is in flight, the status becomes `cancelled` and no further batches start
once the cancellation is observed at the batch boundary (exactly
`min (c+1, #batches)` batches execute), and a final persist occurs — but the
driver then finalizes the job as `completed` (recording every unprocessed URL
as a synthetic failure) and the final webhook *is* sent when configured. -/
theorem cancel_stops_batches_but_completes (urls : List String)
    (exec : String → Bool) (bs c : Nat) (hw : Bool)
    (hbs : 1 ≤ bs) (hne : urls ≠ []) :
    (processJob urls exec bs (some c) hw).batchesRun
        = Nat.min (c + 1) (chunkList urls bs).length ∧
    (processJob urls exec bs (some c) hw).saves.length
        = Nat.min (c + 1) (chunkList urls bs).length + 1 ∧
    (processJob urls exec bs (some c) hw).job.status = "completed" ∧
    (processJob urls exec bs (some c) hw).webhookSent = hw ∧
    ∀ url ∈ urls,
      mapHas (processJob urls exec bs (some c) hw).job.urlState url = true := by
  have hbf : urls.isEmpty = false := by
    cases urls with
    | nil => exact absurd rfl hne
    | cons a l => rfl
  obtain ⟨hcnt1, hcnt2⟩ := runBatches_count exec c (chunkList urls bs) 0
    ⟨⟨"processing", urls.length, 0, 0, 0, []⟩, [], 0⟩ rfl (Nat.zero_le c)
  have hPJ : processJob urls exec bs (some c) hw =
      ⟨(saveJobState (recomputeCounts (jobReconciled urls
          { (driverAfterBatches urls exec bs (some c)).job with
            status := "completed" }))).1,
       (driverAfterBatches urls exec bs (some c)).saves
         ++ [(saveJobState (recomputeCounts (jobReconciled urls
            { (driverAfterBatches urls exec bs (some c)).job with
              status := "completed" }))).2],
       (driverAfterBatches urls exec bs (some c)).batchesRun, hw, urls.length⟩ := by
    simp only [processJob, hbf, Bool.false_eq_true, if_false]
  refine ⟨?_, ?_, ?_, ?_, (processJob_final_map urls exec bs (some c) hw).2⟩
  · rw [hPJ]
    show (driverAfterBatches urls exec bs (some c)).batchesRun = _
    show (runBatches exec (some c) (chunkList urls bs) 0
      ⟨⟨"processing", urls.length, 0, 0, 0, []⟩, [], 0⟩).batchesRun = _
    rw [hcnt1]
    simp
  · rw [hPJ]
    show ((driverAfterBatches urls exec bs (some c)).saves ++ [_]).length = _
    rw [List.length_append]
    show (runBatches exec (some c) (chunkList urls bs) 0
        ⟨⟨"processing", urls.length, 0, 0, 0, []⟩, [], 0⟩).saves.length + _ = _
    rw [hcnt2]
    simp
  · rw [hPJ]
    show (saveJobState (recomputeCounts (jobReconciled urls
        { (driverAfterBatches urls exec bs (some c)).job with
          status := "completed" }))).1.status = "completed"
    rw [saveJobState_fst_status]
    show (jobReconciled urls _).status = "completed"
    rw [jobReconciled_status]
  · rw [hPJ]

/-- Witness for `cancel_stops_batches_but_completes`: three URLs, batch size
1, cancelled during batch 0 — one of three batches runs and the job finishes
`completed`. -/
theorem cancel_stops_batches_but_completes_witness :
    (processJob ["a", "b", "c"] (fun _ => true) 1 (some 0) false).batchesRun
        = Nat.min (0 + 1) (chunkList ["a", "b", "c"] 1).length ∧
    (processJob ["a", "b", "c"] (fun _ => true) 1 (some 0) false).job.status
        = "completed" :=
  ⟨(cancel_stops_batches_but_completes ["a", "b", "c"] (fun _ => true) 1 0 false
      (by decide) (by decide)).1,
   (cancel_stops_batches_but_completes ["a", "b", "c"] (fun _ => true) 1 0 false
      (by decide) (by decide)).2.2.1⟩

/-- **C3.** At job terminal state, exactly one `ProcessingResult` entry exists
per URL of the job: the per-URL map holds exactly one entry for every input
URL — including duplicated inputs and URLs that recur across batches — and a
URL already present in the map is skipped by the worker (`addIfAbsent` leaves
the map unchanged), which is the at-most-once guard of lines 793-796. -/
theorem at_most_once_per_url (urls : List String) (exec : String → Bool)
    (bs : Nat) (cAt : Option Nat) (hw : Bool) (hbs : 1 ≤ bs) :
    (∀ url ∈ urls,
      countKey (processJob urls exec bs cAt hw).job.urlState url = 1) ∧
    (∀ (m : UrlMap) (url : String), mapHas m url = true →
      addIfAbsent (mkResult exec) m url = m) := by
  obtain ⟨hnd, hhas⟩ := processJob_final_map urls exec bs cAt hw
  refine ⟨fun url hu => countKey_eq_one hnd (hhas url hu), ?_⟩
  intro m url hm
  simp [addIfAbsent, hm]

/-- Witness for `at_most_once_per_url` at a job whose input lists the same URL
twice. -/
theorem at_most_once_per_url_witness :
    countKey (processJob ["a", "b", "a"] (fun _ => true) 2 none false).job.urlState
      "a" = 1 ∧
    addIfAbsent (mkResult (fun _ => true))
      [("a", mkResult (fun _ => true) "a")] "a"
      = [("a", mkResult (fun _ => true) "a")] :=
  ⟨(at_most_once_per_url ["a", "b", "a"] (fun _ => true) 2 none false
      (by decide)).1 "a" (by decide),
   (at_most_once_per_url ["a", "b", "a"] (fun _ => true) 2 none false
      (by decide)).2 [("a", mkResult (fun _ => true) "a")] "a" (by decide)⟩

/-- **C4, counterexample.** The claim states that before processing starts the
job's total equals the number of *distinct* URLs enumerated from the source.
The code sets `job.total = urls.length` (line 756) without deduplication: for
the input list `["a", "a"]` the initial total is 2 while only 1 distinct URL
exists. -/
theorem total_counts_duplicates_cex :
    (processJob ["a", "a"] (fun _ => true) 10 none false).initialTotal
        ≠ (["a", "a"] : List String).dedup.length ∧
    (processJob ["a", "a"] (fun _ => true) 10 none false).initialTotal = 2 ∧
    (["a", "a"] : List String).dedup.length = 1 := by
  decide

/-- **C4, amended.** Before processing starts the job's total equals the
number of URLs enumerated from the source *counting duplicates* (the length
of the enumerated list); no deduplication is applied at this point —
duplicates are only skipped later by the per-URL map guard. -/
theorem total_is_enumerated_length (urls : List String) (exec : String → Bool)
    (bs : Nat) (cAt : Option Nat) (hw : Bool) (hne : urls ≠ []) :
    (processJob urls exec bs cAt hw).initialTotal = urls.length := by
  have hbf : urls.isEmpty = false := by
    cases urls with
    | nil => exact absurd rfl hne
    | cons a l => rfl
  simp [processJob, hbf]

/-- Witness for `total_is_enumerated_length` at a three-element input with a
duplicate. -/
theorem total_is_enumerated_length_witness :
    (processJob ["a", "b", "a"] (fun _ => true) 10 none false).initialTotal
      = (["a", "b", "a"] : List String).length :=
  total_is_enumerated_length ["a", "b", "a"] (fun _ => true) 10 none false
    (by decide)

/-- **C10.** For every job whose status is `completed`, both the persisted
summary (`saveJobState`, lines 1093-1096) and the reported summary
(`getJobStatus`, lines 1305-1308) force `summary.total` to equal
`summary.processed` whenever they differ — so the externally reported total is
the processed count, not the enumerated count (covering the equal case, where
forcing is a no-op, the reported total always equals `processed`). -/
theorem completed_total_overwritten (j : Job) (h : j.status = "completed") :
    (saveJobState j).2.summary.total = j.processed ∧
    (saveJobState j).2.summary.processed = j.processed ∧
    (getJobStatusSummary j).total = j.processed ∧
    (getJobStatusSummary j).processed = j.processed := by
  rw [saveJobState_completed_snd j h]
  refine ⟨rfl, rfl, ?_, ?_⟩
  · by_cases hc : j.total = j.processed <;>
      simp [getJobStatusSummary, mkSummary, h, hc, bne_iff_ne]
  · by_cases hc : j.total = j.processed <;>
      simp [getJobStatusSummary, mkSummary, h, hc, bne_iff_ne]

/-- Witness for `completed_total_overwritten` at a completed job whose total
(5) differs from its processed count (3). -/
theorem completed_total_overwritten_witness :
    (saveJobState ⟨"completed", 5, 3, 2, 1, []⟩).2.summary.total = 3 ∧
    (getJobStatusSummary ⟨"completed", 5, 3, 2, 1, []⟩).total = 3 :=
  ⟨(completed_total_overwritten ⟨"completed", 5, 3, 2, 1, []⟩ rfl).1,
   (completed_total_overwritten ⟨"completed", 5, 3, 2, 1, []⟩ rfl).2.2.1⟩

end SpiderForce
